import Mathlib

/-!
Verification of the eleva document-processing core against its specification.

This file gives a shallow embedding, in Lean 4, of the pure computational
content of the following modules of the repository:

* `backend/app/services/document_parser.py`   (the `parse_document` pipeline)
* `backend/app/services/text_chunker.py`      (all three chunking strategies)
* `backend/app/services/document_retrieval.py` (`DocumentRetrievalService.top_chunks`)
* `backend/app/services/embedding_service.py` (`EmbeddingService.embed_document_chunks`)
* `backend/app/services/api_providers/openai_client.py` (`get_embeddings_batch`)

Python strings are modelled as `List Char`, Python ints as `Int` (or `Nat`
where the source value is provably non-negative), floats as `ℚ` (exact
arithmetic; the only float operation the claims touch is the word-boundary
threshold `chunk_size * 0.8`, modelled exactly as `8 * S / 10` via integers).
External collaborators (the embedding provider, the database) are modelled as
oracle functions passed in explicitly; everything the repository itself
computes is translated from the source.
-/

namespace Eleva

/-! ## Python string primitives -/

/-- The whitespace characters recognised by Python's `str.strip`, `\s` in
regexes, etc. (restricted to the ASCII range, which is all the source
manipulates). -/
def isPySpace (c : Char) : Bool :=
  c = ' ' || c = '\t' || c = '\n' || c = '\r' || c = '\x0b' || c = '\x0c'

/-- Python `str.strip()`: drop whitespace from both ends. -/
def pyStrip (l : List Char) : List Char :=
  ((l.dropWhile isPySpace).reverse.dropWhile isPySpace).reverse

/-- Python slicing `text[a:b]` (for `0 ≤ a ≤ b`). -/
def sliceList (l : List Char) (a b : Nat) : List Char :=
  (l.drop a).take (b - a)

/-- Number of non-whitespace characters in a string (used to state what the
spec *says* about the parser post-condition). -/
def countNonWs (l : List Char) : Nat :=
  (l.filter (fun c => ¬ isPySpace c)).length

/-! ## Document parser — `DocumentParser.parse_document`
(`backend/app/services/document_parser.py`, lines 84-158)

The per-format extractors call external libraries (PyPDF2, python-docx, …);
they are modelled as an oracle `extraction` delivering either the extracted
text or an exception message.  The size guard, the parser-detection guard and
the text validation are translated from the source. -/

/-- `MAX_FILE_SIZE = 50 * 1024 * 1024`. -/
def MAX_FILE_SIZE : Nat := 50 * 1024 * 1024

/-- The validation at lines 142-147 of `document_parser.py`:
`if not text or len(text.strip()) < 10: raise DocumentParsingError(...)`.
Returns `true` when the text is accepted. -/
def validExtractedText (text : List Char) : Bool :=
  !(text.isEmpty || decide ((pyStrip text).length < 10))

/-- `DocumentParser.parse_document`, with the raw bytes abstracted to their
length and the format-specific extractor abstracted to an oracle. -/
def parse_document (contentLength : Nat) (parserFound : Bool)
    (extraction : Except (List Char) (List Char)) :
    Except (List Char) (List Char) :=
  if MAX_FILE_SIZE < contentLength then
    .error ("File size exceeds maximum allowed size".toList)
  else if ¬ parserFound then
    .error ("Unsupported file type".toList)
  else
    match extraction with
    | .error e => .error ("Failed to parse document: ".toList ++ e)
    | .ok text =>
      if validExtractedText text then .ok text
      else .error ("Document appears to be empty or contains insufficient text".toList)

/-! ## Retrieval ranker — `DocumentRetrievalService.top_chunks`
(`backend/app/services/document_retrieval.py`, lines 38-96)

The query-embedding provider and the vector search are oracles; the status
checks, query normalisation, limit clamping, similarity conversion and the
candidate-selection loop are translated from the source.  The second
component of the result records whether the embedding provider was called. -/

/-- `ProcessingStatus` (`backend/app/models/document.py`). -/
inductive ProcessingStatus where
  | pending | parsing | chunking | embedding | completed | failed
deriving DecidableEq, Repr

/-- A persisted chunk row as seen by the ranker (`DocumentChunk`). -/
structure SimChunk where
  id : Nat
  chunk_index : Nat
  chunk_text : List Char
deriving DecidableEq, Repr

/-- `RetrievedChunk` (`document_retrieval.py`, lines 22-29). -/
structure RetrievedChunk where
  chunk_id : Nat
  chunk_index : Nat
  text : List Char
  score : ℚ
deriving DecidableEq, Repr

/-- `similarity = max(0.0, 1.0 - float(distance))`, with a malformed
(non-numeric) distance — the `TypeError`/`ValueError` branch — modelled as
`none` and yielding `0` (lines 76-79). -/
def similarityOfDistance : Option ℚ → ℚ
  | none => 0
  | some d => max 0 (1 - d)

/-- `effective_limit = max(1, limit)` (line 55). -/
def effective_limit (lim : Int) : Nat := (max 1 lim).toNat

/-- The candidate-selection loop (lines 70-91): drop candidates whose stored
text strips to empty, convert distance to similarity, stop as soon as
`effective_limit` chunks are collected. -/
def selectChunks (el : Nat) (acc : List RetrievedChunk) :
    List (SimChunk × Option ℚ) → List RetrievedChunk
  | [] => acc
  | (c, dist) :: rest =>
    let text := pyStrip c.chunk_text
    if text.isEmpty then selectChunks el acc rest
    else
      let acc' := acc ++ [⟨c.id, c.chunk_index, text, similarityOfDistance dist⟩]
      if el ≤ acc'.length then acc'
      else selectChunks el acc' rest

/-- `DocumentRetrievalService.top_chunks`.  `embedQuery` is the embedding
provider (`none` = provider raised), `search` is
`document_chunk_crud.search_similar_chunks` keyed by the query embedding and
the requested row limit.  Returns the result together with a flag telling
whether the embedding provider was called. -/
def top_chunks (status : ProcessingStatus) (query : List Char) (lim : Int)
    (embedQuery : List Char → Option (List ℚ))
    (search : List ℚ → Nat → List (SimChunk × Option ℚ)) :
    Except (List Char) (List RetrievedChunk) × Bool :=
  if status ≠ ProcessingStatus.completed then
    (.error ("Document is not ready for semantic search.".toList), false)
  else
    let normalized_query := pyStrip query
    if normalized_query.isEmpty then
      (.error ("Query cannot be empty when retrieving context.".toList), false)
    else
      let el := effective_limit lim
      match embedQuery normalized_query with
      | none =>
        (.error ("Unable to generate embeddings for the provided query.".toList), true)
      | some query_embedding =>
        let raw_results := search query_embedding (el * 3)
        let chunks := selectChunks el [] raw_results
        if chunks.isEmpty then
          (.error ("No relevant context could be found for this question.".toList), true)
        else (.ok chunks, true)

/-! ## Chunking configuration — `ChunkingStrategy.__init__`
(`backend/app/services/text_chunker.py`, lines 69-86) -/

/-- The constructor validation: `chunk_size > 0`, `chunk_overlap ≥ 0`,
`chunk_overlap < chunk_size`, raising `ValueError` otherwise. -/
def chunking_strategy_init (chunk_size chunk_overlap : Int) :
    Except (List Char) Unit :=
  if chunk_size ≤ 0 then .error ("Chunk size must be positive".toList)
  else if chunk_overlap < 0 then .error ("Chunk overlap cannot be negative".toList)
  else if chunk_size ≤ chunk_overlap then
    .error ("Chunk overlap must be smaller than chunk size".toList)
  else .ok ()

/-- The stride computation at lines 152-154 of `FixedSizeChunking.chunk_text`:
`stride = chunk_size - chunk_overlap; if stride <= 0: stride = chunk_size`.
Over `Nat`, the Python test `chunk_size - chunk_overlap <= 0` is `S ≤ O`. -/
def fixedStride (S O : Nat) : Nat :=
  if S ≤ O then S else S - O

/-! ## Text normalisation — `ChunkingStrategy._clean_text`
(`text_chunker.py`, lines 102-112):
`re.sub(r'\s+', ' ', text)`, then `re.sub(r'\n{3,}', '\n\n', text)`, then
`text.strip()`. -/

/-- `re.sub(r'\s+', ' ', text)`: collapse every maximal whitespace run to a
single space.  The flag records whether the previous character was part of a
whitespace run. -/
def collapseWsAux : Bool → List Char → List Char
  | _, [] => []
  | prevSpace, c :: rest =>
    if isPySpace c then
      if prevSpace then collapseWsAux true rest
      else ' ' :: collapseWsAux true rest
    else c :: collapseWsAux false rest

/-- Emit a run of `n` consecutive newlines after the replacement: three or
more become exactly two. -/
def emitNlRun (n : Nat) : List Char :=
  if 3 ≤ n then ['\n', '\n'] else List.replicate n '\n'

/-- `re.sub(r'\n{3,}', '\n\n', text)`: every maximal run of three or more
newlines becomes exactly two.  `n` counts the pending newline run. -/
def collapseNlAux : Nat → List Char → List Char
  | n, [] => emitNlRun n
  | n, c :: rest =>
    if c = '\n' then collapseNlAux (n + 1) rest
    else emitNlRun n ++ (c :: collapseNlAux 0 rest)

def collapseNl (l : List Char) : List Char := collapseNlAux 0 l

/-- `ChunkingStrategy._clean_text`. -/
def clean_text (text : List Char) : List Char :=
  pyStrip (collapseNl (collapseWsAux false text))

/-! ## Fixed-size chunking — `FixedSizeChunking.chunk_text`
(`text_chunker.py`, lines 136-191) -/

/-- The metadata dict attached to each chunk: the producing strategy plus the
strategy-specific unit count (`sentence_count` / `paragraph_count`). -/
structure ChunkMeta where
  strategy : List Char
  unit_count : Option Nat := none
deriving DecidableEq, Repr

/-- `TextChunk` (`text_chunker.py`, lines 18-38). -/
structure TextChunk where
  text : List Char
  index : Nat
  start_char : Nat
  end_char : Nat
  metadata : ChunkMeta
deriving DecidableEq, Repr

/-- Python `text.rfind(' ', start, stop)`: the greatest `i ∈ [start, stop)`
with `text[i] = ' '` (`none` when no such index exists, Python's `-1`). -/
def rfindSpace (text : List Char) (start stop : Nat) : Option Nat :=
  ((List.range' start (stop - start)).filter
    (fun i => text.getD i '\x00' == ' ')).getLast?

/-- The window-end computation of one iteration of the fixed-size loop
(lines 160-169): `chunk_end = min(pos + S, len)`, then, when word boundaries
are respected and the window does not already reach the end of the text, snap
back to the last space strictly beyond 80% of the target size.  The float
comparison `space_pos > chunk_start + chunk_size * 0.8` is modelled exactly
over the integers as `10 * space_pos > 10 * chunk_start + 8 * chunk_size`. -/
def fixed_window_end (S : Nat) (respect : Bool) (text : List Char) (pos : Nat) : Nat :=
  let stop := min (pos + S) text.length
  if respect ∧ stop < text.length then
    match rfindSpace text pos stop with
    | some space_pos =>
      if 10 * pos + 8 * S < 10 * space_pos then space_pos else stop
    | none => stop
  else stop

theorem fixedStride_pos {S O : Nat} (hS : 0 < S) : 0 < fixedStride S O := by
  unfold fixedStride; split <;> omega

/-- The `while current_pos < len(text)` loop of `FixedSizeChunking.chunk_text`
(lines 156-188): emit the (stripped) window when non-empty, reassigning
indices sequentially over kept windows; stop when the window end reaches the
end of the text, otherwise advance by the stride. -/
def fixed_size_loop (S O : Nat) (respect : Bool) (text : List Char) :
    Nat → Nat → Nat → List TextChunk
  | 0, _, _ => []
  | fuel + 1, pos, idx =>
    if pos < text.length then
      let wend := fixed_window_end S respect text pos
      let ctext := pyStrip (sliceList text pos wend)
      if ctext.isEmpty then
        if text.length ≤ wend then []
        else fixed_size_loop S O respect text fuel (pos + fixedStride S O) idx
      else
        ⟨ctext, idx, pos, wend, ⟨"fixed_size".toList, none⟩⟩ ::
          (if text.length ≤ wend then []
           else fixed_size_loop S O respect text fuel (pos + fixedStride S O) (idx + 1))
    else []

/-- `FixedSizeChunking.chunk_text` (default `respect_word_boundaries=True`
when constructed through `TextChunker`). -/
def fixed_size_chunk_text (S O : Nat) (respect : Bool)
    (text : List Char) : List TextChunk :=
  let text := clean_text text
  if text.isEmpty then []
  else fixed_size_loop S O respect text text.length 0 0

/-! ## Sentence chunking — `SentenceChunking`
(`text_chunker.py`, lines 194-319)

`SENTENCE_PATTERN = re.compile(r'(?<=[.!?])\s+(?=[A-Z])')`: the pattern
matches a maximal whitespace run whose preceding character is one of `.!?`
and whose following character is an ASCII uppercase letter.  `re.split`
removes each such run and cuts the string there. -/

def isSentenceEnd (c : Char) : Bool := c = '.' || c = '!' || c = '?'

/-- The regex class `[A-Z]`. -/
def isAsciiUpper (c : Char) : Bool := 'A' ≤ c && c ≤ 'Z'

/-- The maximal leading whitespace run of a string and the remainder. -/
def takeWsRun : List Char → List Char × List Char
  | [] => ([], [])
  | c :: rest =>
    if isPySpace c then
      ((c :: (takeWsRun rest).1), (takeWsRun rest).2)
    else ([], c :: rest)

theorem takeWsRun_length : ∀ l : List Char,
    (takeWsRun l).1.length + (takeWsRun l).2.length = l.length
  | [] => by simp [takeWsRun]
  | c :: rest => by
    simp only [takeWsRun]
    split
    · have := takeWsRun_length rest
      simp only [List.length_cons]
      omega
    · simp

/-- The lookbehind `(?<=[.!?])` applied to the character before the scan
position (no match at the start of the string). -/
def lookbehindSentenceEnd : Option Char → Bool
  | some p => isSentenceEnd p
  | none => false

/-- `SENTENCE_PATTERN.split(text)`.  `prev` is the character preceding the
scan position (the lookbehind), `acc` the current fragment, reversed. -/
def splitSentencesAux (prev : Option Char) (acc : List Char) :
    List Char → List (List Char)
  | [] => [acc.reverse]
  | c :: rest =>
    if isPySpace c && lookbehindSentenceEnd prev then
      -- candidate separator: the maximal whitespace run starting at `c`
      match h : (takeWsRun (c :: rest)).2 with
      | c2 :: rem2 =>
        if isAsciiUpper c2 then
          -- the lookahead holds: split here, dropping the whole run
          acc.reverse :: splitSentencesAux none [] (c2 :: rem2)
        else
          -- lookahead fails for every sub-run: the run is ordinary text
          splitSentencesAux (some ' ') ((takeWsRun (c :: rest)).1.reverse ++ acc)
            (c2 :: rem2)
      | [] =>
        -- trailing whitespace: no following character, no match
        (acc.reverse ++ (takeWsRun (c :: rest)).1) :: []
    else
      splitSentencesAux (some c) (c :: acc) rest
termination_by l => l.length
decreasing_by
  · have h2 := takeWsRun_length (c :: rest)
    have h1 : (takeWsRun (c :: rest)).1.length ≠ 0 := by
      simp only [takeWsRun]
      split
      · simp
      · simp_all
    rw [h] at h2
    simp only [List.length_cons] at h2 ⊢
    omega
  · have h2 := takeWsRun_length (c :: rest)
    have h1 : (takeWsRun (c :: rest)).1.length ≠ 0 := by
      simp only [takeWsRun]
      split
      · simp
      · simp_all
    rw [h] at h2
    simp only [List.length_cons] at h2 ⊢
    omega
  · simp

/-- Lines 303-319 of `_split_sentences`: merge any fragment shorter than 20
characters into the running buffer; flush the buffer before starting a new
one, and once more at the end. -/
def mergeShortSentences (buffer : List Char) : List (List Char) → List (List Char)
  | [] => if buffer.isEmpty then [] else [buffer]
  | s :: rest =>
    if s.length < 20 ∧ ¬ buffer.isEmpty then
      mergeShortSentences (buffer ++ ' ' :: s) rest
    else
      if buffer.isEmpty then mergeShortSentences s rest
      else buffer :: mergeShortSentences s rest

/-- `SentenceChunking._split_sentences` (lines 294-319). -/
def split_sentences (text : List Char) : List (List Char) :=
  let sentences := splitSentencesAux none [] text
  let sentences := (sentences.map pyStrip).filter (fun s => ¬ s.isEmpty)
  mergeShortSentences [] sentences

/-- `sep.join(parts)`. -/
def joinSep (sep : List Char) : List (List Char) → List Char
  | [] => []
  | [s] => s
  | s :: rest => s ++ sep ++ joinSep sep rest

/-- `' '.join(current_chunk)`. -/
def joinSpace (l : List (List Char)) : List Char := joinSep [' '] l

/-- Lines 254-265: collect trailing sentences of the closed chunk whose
cumulative length reaches `chunk_overlap`. -/
def overlapSentencesGo (O : Nat) : List (List Char) → List (List Char) → Nat →
    List (List Char)
  | [], acc, _ => acc
  | s :: rest, acc, size =>
    if O ≤ size + s.length then s :: acc
    else overlapSentencesGo O rest (s :: acc) (size + s.length)

def overlapSentences (O : Nat) (cur : List (List Char)) : List (List Char) :=
  overlapSentencesGo O cur.reverse [] 0

/-- The accumulation loop of `SentenceChunking.chunk_text` (lines 226-289).
`cur` is `current_chunk`, `size` is `current_size`, `start` is
`current_start`. -/
def sentence_loop (S O : Nat) : List (List Char) → List (List Char) →
    Nat → Nat → Nat → List TextChunk
  | [], cur, _, start, idx =>
    if cur.isEmpty then []
    else
      let ctext := joinSpace cur
      [⟨ctext, idx, start, start + ctext.length,
        ⟨"sentence".toList, some cur.length⟩⟩]
  | s :: rest, cur, size, start, idx =>
    if S < size + s.length ∧ ¬ cur.isEmpty then
      let ctext := joinSpace cur
      let cend := start + ctext.length
      let chunk : TextChunk :=
        ⟨ctext, idx, start, cend, ⟨"sentence".toList, some cur.length⟩⟩
      if 0 < O then
        let ov := overlapSentences O cur
        let ovSize := (ov.map List.length).sum
        chunk :: sentence_loop S O rest (ov ++ [s]) (ovSize + s.length)
          (cend - ovSize) (idx + 1)
      else
        chunk :: sentence_loop S O rest [s] s.length cend (idx + 1)
    else
      sentence_loop S O rest (cur ++ [s]) (size + s.length) start idx

/-- `SentenceChunking.chunk_text` (lines 206-292), falling back to fixed-size
chunking when no sentences are detected. -/
def sentence_chunk_text (S O : Nat) (text : List Char) :
    List TextChunk :=
  let text := clean_text text
  if text.isEmpty then []
  else
    let sentences := split_sentences text
    if sentences.isEmpty then fixed_size_chunk_text S O true text
    else sentence_loop S O sentences [] 0 0 0

/-! ## Paragraph chunking — `ParagraphChunking`
(`text_chunker.py`, lines 322-417)

`re.split(r'\n\s*\n', text)`: a separator is a newline, a whitespace run, and
a second newline; by greediness the match extends to the *last* newline of
the maximal whitespace run starting at the first newline. -/

/-- The suffix of `l` strictly after its last `'\n'`. -/
def afterLastNl (l : List Char) : List Char :=
  (l.reverse.takeWhile (fun c => c != '\n')).reverse

theorem afterLastNl_length_lt {l : List Char} (h : '\n' ∈ l) :
    (afterLastNl l).length < l.length := by
  unfold afterLastNl
  rw [List.length_reverse]
  have hne : l.reverse.dropWhile (fun c => c != '\n') ≠ [] := by
    intro hcontra
    have h2 := List.dropWhile_eq_nil_iff.mp hcontra '\n' (List.mem_reverse.mpr h)
    simp at h2
  have hsum := List.takeWhile_append_dropWhile (p := fun c => c != '\n') (l := l.reverse)
  have hlen : (l.reverse.takeWhile (fun c => c != '\n')).length
      + (l.reverse.dropWhile (fun c => c != '\n')).length = l.length := by
    rw [← List.length_append, hsum, List.length_reverse]
  have hpos : 0 < (l.reverse.dropWhile (fun c => c != '\n')).length :=
    List.length_pos.mpr hne
  omega

/-- `re.split(r'\n\s*\n', text)`.  `acc` is the current fragment, reversed. -/
def splitParagraphsAux (acc : List Char) : List Char → List (List Char)
  | [] => [acc.reverse]
  | c :: rest =>
    if c = '\n' then
      if h : '\n' ∈ (takeWsRun rest).1 then
        -- the run after the first newline contains a second newline: the
        -- separator ends at the last newline of the run
        acc.reverse ::
          splitParagraphsAux [] (afterLastNl (takeWsRun rest).1 ++ (takeWsRun rest).2)
      else splitParagraphsAux (c :: acc) rest
    else splitParagraphsAux (c :: acc) rest
termination_by l => l.length
decreasing_by
  · have h1 := takeWsRun_length rest
    have h2 := afterLastNl_length_lt h
    simp only [List.length_append, List.length_cons]
    omega
  · simp
  · simp

/-- `'\n\n'.join(current_chunk)`. -/
def joinPara (l : List (List Char)) : List Char := joinSep ['\n', '\n'] l

/-- The accumulation loop of `ParagraphChunking.chunk_text` (lines 353-414).
Note that the source adds `para_size + (4 if current_chunk else 0)` *after*
appending the paragraph, so the `+ 4` is applied unconditionally. -/
def paragraph_loop (S O : Nat) : List (List Char) → List (List Char) →
    Nat → Nat → Nat → List TextChunk
  | [], cur, _, start, idx =>
    if cur.isEmpty then []
    else
      let ctext := joinPara cur
      [⟨ctext, idx, start, start + ctext.length,
        ⟨"paragraph".toList, some cur.length⟩⟩]
  | p :: rest, cur, size, start, idx =>
    if S < size + p.length ∧ ¬ cur.isEmpty then
      let ctext := joinPara cur
      let cend := start + ctext.length
      let chunk : TextChunk :=
        ⟨ctext, idx, start, cend, ⟨"paragraph".toList, some cur.length⟩⟩
      if 0 < O ∧ ¬ cur.isEmpty then
        let last_para := cur.getLastD []
        if last_para.length ≤ O then
          chunk :: paragraph_loop S O rest ([last_para] ++ [p])
            (last_para.length + p.length + 4) (cend - last_para.length) (idx + 1)
        else
          chunk :: paragraph_loop S O rest [p] (p.length + 4) cend (idx + 1)
      else
        chunk :: paragraph_loop S O rest [p] (p.length + 4) cend (idx + 1)
    else
      paragraph_loop S O rest (cur ++ [p]) (size + p.length + 4) start idx

/-- `ParagraphChunking.chunk_text` (lines 331-417): the text is *not* cleaned
first (to preserve the blank-line structure); falls back to sentence chunking
when no paragraphs are detected. -/
def paragraph_chunk_text (S O : Nat) (text : List Char) :
    List TextChunk :=
  if text.isEmpty then []
  else
    let paragraphs :=
      ((splitParagraphsAux [] text).map pyStrip).filter (fun p => ¬ p.isEmpty)
    if paragraphs.isEmpty then sentence_chunk_text S O text
    else paragraph_loop S O paragraphs [] 0 0 0

/-! ## `TextChunker.chunk_text` (`text_chunker.py`, lines 441-484) -/

/-- Dispatch on the strategy name (the `self.strategies` table). -/
def strategy_chunk_text (strategy : List Char) (S O : Nat)
    (text : List Char) : List TextChunk :=
  if strategy = "fixed_size".toList then fixed_size_chunk_text S O true text
  else if strategy = "sentence".toList then sentence_chunk_text S O text
  else if strategy = "paragraph".toList then paragraph_chunk_text S O text
  else []

/-- Python `x or default` applied to an optional int argument: `None` and the
falsy value `0` are both replaced by the default (lines 469-470). -/
def or_default (x : Option Int) (d : Int) : Int :=
  match x with
  | none => d
  | some v => if v = 0 then d else v

/-- `TextChunker.chunk_text`: resolve defaults (`chunk_size or 1000`,
`chunk_overlap or 200`), construct the strategy (running the
`ChunkingStrategy.__init__` validation), then chunk. -/
def text_chunker_chunk_text (strategy : List Char)
    (chunk_size chunk_overlap : Option Int) (text : List Char) :
    Except (List Char) (List TextChunk) :=
  if strategy ≠ "fixed_size".toList ∧ strategy ≠ "sentence".toList ∧
      strategy ≠ "paragraph".toList then
    .error ("Unknown chunking strategy: ".toList ++ strategy)
  else
    let S := or_default chunk_size 1000
    let O := or_default chunk_overlap 200
    if S ≤ 0 then .error ("Chunk size must be positive".toList)
    else if O < 0 then .error ("Chunk overlap cannot be negative".toList)
    else if S ≤ O then .error ("Chunk overlap must be smaller than chunk size".toList)
    else .ok (strategy_chunk_text strategy S.toNat O.toNat text)

/-! ## Embedding orchestrator — `EmbeddingService.embed_document_chunks`
(`backend/app/services/embedding_service.py`, lines 120-281)

The provider (`openai_client.get_embeddings_batch`) is an oracle: `g` gives
the embedding vector per chunk text, `tok` the token usage per chunk text,
and `fail k` says whether the provider call for batch `k` raises
(`APIError` / `RateLimitError` / any other exception — all three handlers
record the batch's chunk ids as failed and continue; the rate-limit sleep has
no effect on the resulting state).  The database session is modelled as the
association list of stored embeddings. -/

/-- A persisted `DocumentChunk` as seen by the orchestrator. -/
structure DChunk where
  id : Nat
  chunk_text : List Char
deriving DecidableEq, Repr

/-- `_store_embedding` (lines 283-322): update the existing row for the chunk
if present, insert a new one otherwise. -/
def store_embedding (stored : List (Nat × List ℚ)) (cid : Nat) (v : List ℚ) :
    List (Nat × List ℚ) :=
  if stored.any (fun p => p.1 == cid) then
    stored.map (fun p => if p.1 == cid then (p.1, v) else p)
  else stored ++ [(cid, v)]

/-- The running state of the batch loop. -/
structure EmbRunState where
  stored : List (Nat × List ℚ)
  processed : Nat
  failed : List Nat
  tokens : Nat
deriving Repr

/-- `chunks[i:i+batch_size]` for `i in range(0, total_chunks, batch_size)`:
partition a list into batches of `B` (the fuel is immaterial whenever it is
at least the list length and `0 < B`; see `chunkEvery_fuel`). -/
def chunkEveryAux (B : Nat) : Nat → List α → List (List α)
  | 0, _ => []
  | fuel + 1, l =>
    if l.isEmpty then [] else l.take B :: chunkEveryAux B fuel (l.drop B)

def chunkEvery (B : Nat) (l : List α) : List (List α) :=
  chunkEveryAux B l.length l

/-- The `for i in range(0, total_chunks, batch_size)` loop (lines 161-227):
on provider success store one embedding per chunk and count it processed; on
any provider error record the batch's chunk ids as failed and continue with
the next batch. -/
def embed_batches (g : List Char → List ℚ) (tok : List Char → Nat)
    (fail : Nat → Bool) : Nat → List (List DChunk) → EmbRunState → EmbRunState
  | _, [], st => st
  | k, batch :: rest, st =>
    if fail k then
      embed_batches g tok fail (k + 1) rest
        { st with failed := st.failed ++ batch.map DChunk.id }
    else
      embed_batches g tok fail (k + 1) rest
        { st with
          stored := (batch.map (fun c => (c.id, g c.chunk_text))).foldl
            (fun s p => store_embedding s p.1 p.2) st.stored
          tokens := st.tokens + (batch.map (fun c => tok c.chunk_text)).sum
          processed := st.processed + batch.length }

/-- The summary dict returned by `embed_document_chunks` (lines 250-259). -/
structure EmbedSummary where
  total_chunks : Nat
  processed_chunks : Nat
  failed_chunks : Nat
  failed_chunk_ids : List Nat
  tokens_used : Nat
  success : Bool
deriving DecidableEq, Repr

/-- The document fields the orchestrator's terminal transition writes
(`_update_document_status`, lines 324-353). -/
structure DocumentState where
  processing_status : ProcessingStatus
  processing_error : Option (List Char)
deriving DecidableEq, Repr

/-- `EmbeddingService.embed_document_chunks`: run the batch loop, then mark
the document `COMPLETED` — with a non-fatal error note about the failed count
when some chunk ids failed (lines 229-242) — and build the summary.  Returns
(summary, final document state, stored embeddings). -/
def embed_document_chunks (g : List Char → List ℚ) (tok : List Char → Nat)
    (fail : Nat → Bool) (chunks : List DChunk) (batch_size : Nat) :
    EmbedSummary × DocumentState × List (Nat × List ℚ) :=
  let st := embed_batches g tok fail 0 (chunkEvery batch_size chunks)
    ⟨[], 0, [], 0⟩
  let doc : DocumentState :=
    if st.failed.isEmpty then ⟨ProcessingStatus.completed, none⟩
    else
      ⟨ProcessingStatus.completed,
       some ("Failed to embed ".toList ++ (toString st.failed.length).toList
         ++ " chunks".toList)⟩
  (⟨chunks.length, st.processed, st.failed.length, st.failed, st.tokens,
    st.failed.isEmpty⟩, doc, st.stored)

/-! ## Embedding client batching — `OpenAIClient.get_embeddings_batch`
(`backend/app/services/api_providers/openai_client.py`, lines 234-309)

The provider is an oracle `g` giving a vector per input text (the OpenAI API
returns `response.data` with one embedding per input, in request order).
`_process_embedding_batch` tags each result with the *global* index
`start_index + i`; `get_embeddings_batch` gathers the per-batch result lists
and sorts the flattened list by that index.  Because the claims quantify over
every completion order, the flattened order is generalised to an arbitrary
permutation of the per-batch result lists. -/

/-- `EmbeddingResult` restricted to the fields the reordering uses
(`api_providers/models.py`). -/
structure EmbeddingResult where
  index : Nat
  embedding : List ℚ
deriving DecidableEq, Repr

/-- `MAX_EMBEDDING_INPUTS_PER_REQUEST = 2048`. -/
def MAX_EMBEDDING_INPUTS_PER_REQUEST : Nat := 2048

/-- `OpenAIClient._process_embedding_batch` (lines 285-309): embed one batch,
tagging result `i` with global index `start_index + i`. -/
def process_embedding_batch (g : List Char → List ℚ) (texts : List (List Char))
    (start_index : Nat) : List EmbeddingResult :=
  texts.enum.map (fun p => ⟨start_index + p.1, g p.2⟩)

/-- The task list built at lines 263-268: one
`_process_embedding_batch(batch, model, i)` per batch start `i`. -/
def embedding_batch_tasksAux (g : List Char → List ℚ) (eff : Nat) :
    Nat → Nat → List (List Char) → List (List EmbeddingResult)
  | 0, _, _ => []
  | fuel + 1, start, texts =>
    if texts.isEmpty then []
    else
      process_embedding_batch g (texts.take eff) start ::
        embedding_batch_tasksAux g eff fuel (start + eff) (texts.drop eff)

def embedding_batch_tasks (g : List Char → List ℚ) (eff : Nat) (start : Nat)
    (texts : List (List Char)) : List (List EmbeddingResult) :=
  embedding_batch_tasksAux g eff texts.length start texts

/-- The comparison used by `all_results.sort(key=lambda x: x.index)`. -/
def indexLe (a b : EmbeddingResult) : Bool := a.index ≤ b.index

/-- `OpenAIClient.get_embeddings_batch` on a non-empty input, with the
concatenation order of the gathered per-batch result lists exposed as the
parameter `gathered` (any permutation of the submitted task list): flatten
and sort by the global index. -/
def get_embeddings_batch_assemble (gathered : List (List EmbeddingResult)) :
    List EmbeddingResult :=
  (gathered.flatten).mergeSort indexLe

/-- The in-input-order result list that `get_embeddings_batch` is specified
to return: one result per input text, in the order of the inputs.  (This
definition follows the spec's words, for comparison with the assembled
output.) -/
def canonicalResults (g : List Char → List ℚ) (texts : List (List Char)) :
    List EmbeddingResult :=
  texts.enum.map (fun p => ⟨p.1, g p.2⟩)

/-- `OpenAIClient.get_embeddings_batch` (lines 234-283): empty input returns
`[]`; otherwise the gathered per-batch results (in the given completion
order) are flattened and sorted by global index. -/
def get_embeddings_batch (texts : List (List Char)) (_batch_size : Nat)
    (gathered : List (List EmbeddingResult)) : List EmbeddingResult :=
  if texts.isEmpty then [] else get_embeddings_batch_assemble gathered

/-- Reference spelling of the per-batch results starting at a given global
index (`process_embedding_batch` unrolled; used in the proofs). -/
def resultsFrom (g : List Char → List ℚ) (start : Nat) :
    List (List Char) → List EmbeddingResult
  | [] => []
  | t :: rest => ⟨start, g t⟩ :: resultsFrom g (start + 1) rest

/-- The strict-or-equal order on results by global index (the sort key). -/
def idxLtOrEq (a b : EmbeddingResult) : Prop := a.index < b.index ∨ a = b

instance : IsAntisymm EmbeddingResult idxLtOrEq where
  antisymm a b hab hba := by
    rcases hab with h1 | h1
    · rcases hba with h2 | h2
      · omega
      · exact h2.symm
    · exact h1

/-! # Theorems -/

/-! ## C4 — parser text-length post-condition -/

/-- **C4, counterexample.**  The claim says `parse_document` succeeds only
when the extracted text has at least 10 *non-whitespace* characters.  The
source checks `len(text.strip()) < 10`, which counts interior whitespace:
the text `"a b c d e f"` (stripped length 11, but only 6 non-whitespace
characters) is accepted. -/
theorem C4_counterexample :
    (parse_document 11 true (Except.ok ("a b c d e f".toList))).isOk = true ∧
    countNonWs ("a b c d e f".toList) < 10 := by
  decide

theorem validExtractedText_iff (text : List Char) :
    validExtractedText text = true ↔ 10 ≤ (pyStrip text).length := by
  unfold validExtractedText
  rw [Bool.not_eq_true', Bool.or_eq_false_iff]
  constructor
  · rintro ⟨-, h2⟩
    simp only [decide_eq_false_iff_not, not_lt] at h2
    exact h2
  · intro h
    refine ⟨?_, by simpa using Nat.not_lt.mpr h⟩
    cases text with
    | nil => simp [pyStrip] at h
    | cons a l => simp

/-- **C4, amended.**  For every run of `parse_document`: a success implies the
extracted text has, *after stripping leading and trailing whitespace*, length
at least 10 (interior whitespace counts); and every extraction whose stripped
text is shorter than 10 characters fails with `DocumentParsingError`, never
returning a success. -/
theorem C4_strip_length_validation :
    (∀ (len : Nat) (pf : Bool) (ex : Except (List Char) (List Char))
        (text : List Char),
      parse_document len pf ex = Except.ok text → 10 ≤ (pyStrip text).length) ∧
    (∀ (len : Nat) (pf : Bool) (text : List Char),
      (pyStrip text).length < 10 →
      (parse_document len pf (Except.ok text)).isOk = false) := by
  constructor
  · intro len pf ex text h
    unfold parse_document at h
    split at h
    · exact absurd h (by simp)
    · split at h
      · exact absurd h (by simp)
      · split at h
        · exact absurd h (by simp)
        · rename_i text'
          split at h
          · rename_i hvalid
            cases h
            exact (validExtractedText_iff text).mp hvalid
          · exact absurd h (by simp)
  · intro len pf text h
    unfold parse_document
    split
    · rfl
    · split
      · rfl
      · have hvalid : validExtractedText text = false := by
          rw [← Bool.not_eq_true, validExtractedText_iff]
          omega
        simp only [hvalid, Bool.false_eq_true, if_false]
        rfl

/-- Witness for `C4_strip_length_validation` at concrete inputs. -/
theorem C4_strip_length_validation_witness :
    10 ≤ (pyStrip ("0123456789".toList)).length ∧
    (parse_document 5 true (Except.ok ("short".toList))).isOk = false :=
  ⟨C4_strip_length_validation.1 10 true (Except.ok ("0123456789".toList))
      ("0123456789".toList) rfl,
   C4_strip_length_validation.2 5 true ("short".toList) (by decide)⟩

/-! ## C8 — configuration-time validation of chunking parameters -/

/-- **C8.**  Constructing a chunking strategy with `chunk_size ≤ 0`,
`chunk_overlap < 0` or `chunk_overlap ≥ chunk_size` raises `ValueError` at
construction time (the validation succeeds exactly on valid configurations);
and for every validly constructed strategy the chunk-time misconfiguration
fallback (`if stride <= 0: stride = chunk_size`) is never taken — the stride
is the positive number `chunk_size - chunk_overlap`, so chunking never fails
for those reasons at chunk time. -/
theorem C8_config_validation :
    ∀ S O : Int,
      (chunking_strategy_init S O = Except.ok () ↔ 0 < S ∧ 0 ≤ O ∧ O < S) ∧
      (0 ≤ O → O < S →
        fixedStride S.toNat O.toNat = S.toNat - O.toNat ∧
        0 < fixedStride S.toNat O.toNat) := by
  intro S O
  constructor
  · unfold chunking_strategy_init
    split_ifs with h1 h2 h3 <;> simp <;> omega
  · intro hO hOS
    unfold fixedStride
    rw [if_neg (by omega)]
    omega

/-- Witness for `C8_config_validation` at a concrete configuration. -/
theorem C8_config_validation_witness :
    (chunking_strategy_init 100 100 = Except.ok () ↔
      0 < (100 : Int) ∧ 0 ≤ (100 : Int) ∧ (100 : Int) < 100) ∧
    (fixedStride (1000 : Int).toNat (200 : Int).toNat
        = (1000 : Int).toNat - (200 : Int).toNat ∧
      0 < fixedStride (1000 : Int).toNat (200 : Int).toNat) :=
  ⟨(C8_config_validation 100 100).1,
   (C8_config_validation 1000 200).2 (by decide) (by decide)⟩

/-! ## C9 — falsy chunking arguments silently replaced by defaults -/

/-- **C9.**  `TextChunker.chunk_text` resolves its optional arguments with
`chunk_size or 1000` / `chunk_overlap or 200`, so an explicit `0` — a falsy
value — is silently replaced by the default before the strategy is
constructed: passing `chunk_overlap=0` behaves exactly like passing `200`,
and passing `chunk_size=0` behaves exactly like passing `1000`; an explicitly
requested zero overlap is never honoured. -/
theorem C9_falsy_defaults :
    ∀ (strategy : List Char) (size ov : Option Int) (text : List Char),
      or_default (some 0) 200 = 200 ∧
      or_default (some 0) 1000 = 1000 ∧
      text_chunker_chunk_text strategy size (some 0) text
        = text_chunker_chunk_text strategy size (some 200) text ∧
      text_chunker_chunk_text strategy (some 0) ov text
        = text_chunker_chunk_text strategy (some 1000) ov text := by
  intro strategy size ov text
  refine ⟨rfl, rfl, rfl, rfl⟩

/-! ## Retrieval-loop lemmas -/

/-- Every chunk collected by the selection loop either was already in the
accumulator or carries the similarity score of one of the candidates. -/
theorem selectChunks_mem (el : Nat) :
    ∀ (cands : List (SimChunk × Option ℚ)) (acc : List RetrievedChunk)
      (r : RetrievedChunk), r ∈ selectChunks el acc cands →
      r ∈ acc ∨ ∃ cd ∈ cands, r.score = similarityOfDistance cd.2
  | [], acc, r => by
    intro h
    exact Or.inl h
  | (c, dist) :: rest, acc, r => by
    intro h
    simp only [selectChunks] at h
    split at h
    · rcases selectChunks_mem el rest acc r h with h' | ⟨cd, hcd, hs⟩
      · exact Or.inl h'
      · exact Or.inr ⟨cd, List.mem_cons_of_mem _ hcd, hs⟩
    · split at h
      · rcases List.mem_append.mp h with h' | h'
        · exact Or.inl h'
        · refine Or.inr ⟨(c, dist), List.mem_cons_self _ _, ?_⟩
          simp only [List.mem_singleton] at h'
          rw [h']
      · rcases selectChunks_mem el rest _ r h with h' | ⟨cd, hcd, hs⟩
        · rcases List.mem_append.mp h' with h'' | h''
          · exact Or.inl h''
          · refine Or.inr ⟨(c, dist), List.mem_cons_self _ _, ?_⟩
            simp only [List.mem_singleton] at h''
            rw [h'']
        · exact Or.inr ⟨cd, List.mem_cons_of_mem _ hcd, hs⟩

/-- The selection loop never collects more than `effective_limit` chunks. -/
theorem selectChunks_length (el : Nat) :
    ∀ (cands : List (SimChunk × Option ℚ)) (acc : List RetrievedChunk),
      acc.length < el → (selectChunks el acc cands).length ≤ el
  | [], acc => by
    intro h
    simpa [selectChunks] using Nat.le_of_lt h
  | (c, dist) :: rest, acc => by
    intro h
    simp only [selectChunks]
    split
    · exact selectChunks_length el rest acc h
    · split
      · rename_i hstop
        simp only [List.length_append, List.length_singleton] at hstop ⊢
        omega
      · rename_i hstop
        apply selectChunks_length el rest
        simp only [List.length_append, List.length_singleton] at hstop ⊢
        omega

/-! ## C6 — similarity score computation and clamping -/

/-- **C6.**  The ranker computes each score as `max(0, 1 − distance)`: a
distance greater than 1 yields similarity exactly 0 (never negative), a
malformed (non-numeric) distance yields 0 rather than raising, every score
the selection loop emits is the similarity of one of the search candidates,
and — the distances returned by the cosine-distance search being
non-negative — every returned score lies in `[0, 1]`. -/
theorem C6_similarity_clamping :
    ∀ d : ℚ,
      similarityOfDistance (some d) = max 0 (1 - d) ∧
      (1 < d → similarityOfDistance (some d) = 0) ∧
      similarityOfDistance none = 0 ∧
      (0 ≤ d → 0 ≤ similarityOfDistance (some d) ∧
        similarityOfDistance (some d) ≤ 1) ∧
      (∀ (el : Nat) (cands : List (SimChunk × Option ℚ))
          (r : RetrievedChunk), r ∈ selectChunks el [] cands →
        ∃ cd ∈ cands, r.score = similarityOfDistance cd.2) ∧
      (∀ (el : Nat) (cands : List (SimChunk × Option ℚ)),
        (∀ cd ∈ cands, ∀ x, cd.2 = some x → 0 ≤ x) →
        ∀ r ∈ selectChunks el [] cands, 0 ≤ r.score ∧ r.score ≤ 1) := by
  have hbounds : ∀ d : ℚ, 0 ≤ d →
      0 ≤ similarityOfDistance (some d) ∧ similarityOfDistance (some d) ≤ 1 := by
    intro d hd
    constructor
    · exact le_max_left 0 (1 - d)
    · exact max_le (by norm_num) (by linarith)
  intro d
  refine ⟨rfl, ?_, rfl, hbounds d, ?_, ?_⟩
  · intro hd
    simp only [similarityOfDistance]
    exact max_eq_left (by linarith)
  · intro el cands r hr
    rcases selectChunks_mem el cands [] r hr with h | h
    · simp at h
    · exact h
  · intro el cands hdist r hr
    rcases selectChunks_mem el cands [] r hr with h | ⟨cd, hcd, hs⟩
    · simp at h
    · rw [hs]
      cases hcd2 : cd.2 with
      | none => simp [similarityOfDistance]
      | some x =>
        exact hbounds x (hdist cd hcd x hcd2)

/-- Witness for `C6_similarity_clamping` at concrete distances. -/
theorem C6_similarity_clamping_witness :
    similarityOfDistance (some 2) = 0 ∧
    (0 ≤ similarityOfDistance (some (1/2)) ∧
      similarityOfDistance (some (1/2)) ≤ 1) :=
  ⟨(C6_similarity_clamping 2).2.1 (by norm_num),
   (C6_similarity_clamping (1/2)).2.2.2.1 (by norm_num)⟩

/-! ## C7 — retrieval preconditions checked before any provider call -/

/-- **C7.**  `top_chunks` fails with `NotReady` when the document is not
`COMPLETED` and with `EmptyQuery` when the query strips to empty — in both
cases before the embedding provider is called — and the query embedding is
requested exactly when both preconditions hold. -/
theorem C7_preconditions :
    ∀ (status : ProcessingStatus) (query : List Char) (lim : Int)
      (embedQuery : List Char → Option (List ℚ))
      (search : List ℚ → Nat → List (SimChunk × Option ℚ)),
      (status ≠ ProcessingStatus.completed →
        top_chunks status query lim embedQuery search =
          (Except.error ("Document is not ready for semantic search.".toList),
            false)) ∧
      (pyStrip query = [] →
        top_chunks ProcessingStatus.completed query lim embedQuery search =
          (Except.error ("Query cannot be empty when retrieving context.".toList),
            false)) ∧
      ((top_chunks status query lim embedQuery search).2 = true ↔
        status = ProcessingStatus.completed ∧ pyStrip query ≠ []) := by
  intro status query lim embedQuery search
  refine ⟨?_, ?_, ?_⟩
  · intro hst
    unfold top_chunks
    rw [if_pos hst]
  · intro hq
    unfold top_chunks
    rw [if_neg (by simp), if_pos (by simp [hq])]
  · unfold top_chunks
    split
    · rename_i hst
      simp [hst]
    · rename_i hst
      rw [not_not] at hst
      dsimp only
      split
      · rename_i hq
        simp only [List.isEmpty_iff] at hq
        simp [hst, hq]
      · rename_i hq
        simp only [List.isEmpty_iff] at hq
        cases embedQuery (pyStrip query) with
        | none => simp [hst, hq]
        | some qe =>
          split
          · simp [hst, hq]
          · split <;> simp [hst, hq]

/-- Witness for `C7_preconditions` at concrete inputs. -/
theorem C7_preconditions_witness :
    top_chunks ProcessingStatus.embedding ("q".toList) 5 (fun _ => none)
        (fun _ _ => []) =
      (Except.error ("Document is not ready for semantic search.".toList),
        false) ∧
    top_chunks ProcessingStatus.completed ("  ".toList) 5 (fun _ => none)
        (fun _ _ => []) =
      (Except.error ("Query cannot be empty when retrieving context.".toList),
        false) :=
  ⟨(C7_preconditions ProcessingStatus.embedding ("q".toList) 5 (fun _ => none)
      (fun _ _ => [])).1 (by decide),
   (C7_preconditions ProcessingStatus.completed ("  ".toList) 5 (fun _ => none)
      (fun _ _ => [])).2.1 (by decide)⟩

/-! ## C10 — non-positive limit clamped to 1 -/

/-- **C10.**  A call to `top_chunks` with `limit ≤ 0` behaves exactly as if
limit were `1`: the effective limit is `max(1, limit) = 1`, so three
candidates are fetched (`effective_limit * 3 = 3`), the whole call computes
the same result as with limit `1`, and a successful result holds at most one
chunk — a non-positive limit never raises and never yields an unbounded
result. -/
theorem C10_limit_clamping :
    ∀ (status : ProcessingStatus) (query : List Char) (lim : Int)
      (embedQuery : List Char → Option (List ℚ))
      (search : List ℚ → Nat → List (SimChunk × Option ℚ)),
      lim ≤ 0 →
      effective_limit lim = 1 ∧
      effective_limit lim * 3 = 3 ∧
      top_chunks status query lim embedQuery search
        = top_chunks status query 1 embedQuery search ∧
      (∀ l, (top_chunks status query lim embedQuery search).1 = Except.ok l →
        l.length ≤ 1) := by
  intro status query lim embedQuery search hlim
  have hel : effective_limit lim = 1 := by
    unfold effective_limit
    rw [max_eq_left (by omega)]
    rfl
  have heq : effective_limit lim = effective_limit 1 := by rw [hel]; rfl
  refine ⟨hel, by rw [hel], ?_, ?_⟩
  · unfold top_chunks
    rw [heq]
  · intro l hl
    unfold top_chunks at hl
    split at hl
    · exact absurd hl (by simp)
    · dsimp only at hl
      split at hl
      · exact absurd hl (by simp)
      · rw [hel] at hl
        revert hl
        cases embedQuery (pyStrip query) with
        | none =>
          intro hl
          exact absurd hl (by simp)
        | some qe =>
          intro hl
          dsimp only at hl
          split at hl
          · exact absurd hl (by simp)
          · injection hl with hl2
            rw [← hl2]
            exact selectChunks_length 1 _ [] (by simp)

/-- Witness for `C10_limit_clamping` at a concrete non-positive limit. -/
theorem C10_limit_clamping_witness :
    effective_limit (-3) = 1 ∧ effective_limit (-3) * 3 = 3 :=
  ⟨((C10_limit_clamping ProcessingStatus.completed ("q".toList) (-3)
      (fun _ => none) (fun _ _ => [])) (by decide)).1,
   ((C10_limit_clamping ProcessingStatus.completed ("q".toList) (-3)
      (fun _ => none) (fun _ _ => [])) (by decide)).2.1⟩

/-! ## Fixed-size loop invariants -/

/-- `rfindSpace` returns an index inside the requested range. -/
theorem rfindSpace_bounds {text : List Char} {start stop sp : Nat}
    (h : rfindSpace text start stop = some sp) : start ≤ sp ∧ sp < stop := by
  unfold rfindSpace at h
  have hmem := List.mem_of_mem_getLast? h
  have hmem2 := (List.mem_filter.mp hmem).1
  rw [List.mem_range'_1] at hmem2
  omega

/-- The window end of one fixed-size iteration lies strictly beyond the
window start and within `chunk_size` of it. -/
theorem fixed_window_end_bounds {S : Nat} (hS : 0 < S) (respect : Bool)
    {text : List Char} {pos : Nat} (hpos : pos < text.length) :
    pos < fixed_window_end S respect text pos ∧
    fixed_window_end S respect text pos ≤ pos + S := by
  unfold fixed_window_end
  dsimp only
  have hstop1 : pos < min (pos + S) text.length := by omega
  have hstop2 : min (pos + S) text.length ≤ pos + S := by omega
  split
  · split
    · rename_i sp hsp
      have hb := rfindSpace_bounds hsp
      split
      · constructor <;> omega
      · exact ⟨hstop1, hstop2⟩
    · exact ⟨hstop1, hstop2⟩
  · exact ⟨hstop1, hstop2⟩

/-- With a positive stride and enough fuel, the fuel is immaterial: the
fuel-indexed loop computes the Python `while` loop. -/
theorem fixed_size_loop_fuel (S O : Nat) (hS : 0 < S) (respect : Bool)
    (text : List Char) :
    ∀ (n m pos idx : Nat), text.length - pos ≤ n → text.length - pos ≤ m →
      fixed_size_loop S O respect text n pos idx
        = fixed_size_loop S O respect text m pos idx := by
  intro n
  induction n with
  | zero =>
    intro m pos idx hn hm
    cases m with
    | zero => rfl
    | succ m =>
      simp only [fixed_size_loop]
      rw [if_neg (by omega)]
  | succ n ih =>
    intro m pos idx hn hm
    cases m with
    | zero =>
      simp only [fixed_size_loop]
      rw [if_neg (by omega)]
    | succ m =>
      simp only [fixed_size_loop]
      by_cases hpos : pos < text.length
      · rw [if_pos hpos, if_pos hpos]
        have hstride := fixedStride_pos (S := S) (O := O) hS
        split
        · split
          · rfl
          · exact ih m (pos + fixedStride S O) idx (by omega) (by omega)
        · split
          · rfl
          · rw [ih m (pos + fixedStride S O) (idx + 1) (by omega) (by omega)]
      · rw [if_neg hpos, if_neg hpos]

/-- Every chunk produced by the fixed-size loop starts at or after the
current position, ends within `chunk_size` of its start, and ends after its
start. -/
theorem fixed_size_loop_bounds (S O : Nat) (hS : 0 < S) (respect : Bool)
    (text : List Char) :
    ∀ (fuel pos idx : Nat),
      ∀ c ∈ fixed_size_loop S O respect text fuel pos idx,
        pos ≤ c.start_char ∧ c.end_char ≤ c.start_char + S ∧
        c.start_char < c.end_char := by
  intro fuel
  induction fuel with
  | zero =>
    intro pos idx c hc
    simp [fixed_size_loop] at hc
  | succ fuel ih =>
    intro pos idx c hc
    simp only [fixed_size_loop] at hc
    by_cases hpos : pos < text.length
    · rw [if_pos hpos] at hc
      have hw := fixed_window_end_bounds hS respect hpos (S := S)
      split at hc
      · split at hc
        · simp at hc
        · have := ih (pos + fixedStride S O) idx c hc
          have hstride := fixedStride_pos (S := S) (O := O) hS
          exact ⟨by omega, this.2.1, this.2.2⟩
      · rcases List.mem_cons.mp hc with rfl | hc'
        · exact ⟨Nat.le_refl _, hw.2, hw.1⟩
        · split at hc'
          · simp at hc'
          · have := ih (pos + fixedStride S O) (idx + 1) c hc'
            have hstride := fixedStride_pos (S := S) (O := O) hS
            exact ⟨by omega, this.2.1, this.2.2⟩
    · rw [if_neg hpos] at hc
      simp at hc

/-- Consecutive chunks kept by the fixed-size loop are at least one stride
apart. -/
theorem fixed_size_loop_chain (S O : Nat) (hS : 0 < S) (respect : Bool)
    (text : List Char) :
    ∀ (fuel pos idx : Nat),
      List.Chain' (fun a b => a.start_char + fixedStride S O ≤ b.start_char)
        (fixed_size_loop S O respect text fuel pos idx) := by
  intro fuel
  induction fuel with
  | zero =>
    intro pos idx
    exact List.chain'_nil
  | succ fuel ih =>
    intro pos idx
    simp only [fixed_size_loop]
    by_cases hpos : pos < text.length
    · rw [if_pos hpos]
      split
      · split
        · exact List.chain'_nil
        · exact ih (pos + fixedStride S O) idx
      · rw [List.chain'_cons']
        constructor
        · intro y hy
          split at hy
          · simp at hy
          · have hymem := List.mem_of_mem_head? hy
            have := fixed_size_loop_bounds S O hS respect text fuel
              (pos + fixedStride S O) (idx + 1) y hymem
            dsimp only
            omega
        · split
          · exact List.chain'_nil
          · exact ih (pos + fixedStride S O) (idx + 1)
    · rw [if_neg hpos]
      exact List.chain'_nil

/-- The indices assigned by the fixed-size loop are consecutive starting at
`idx`. -/
theorem fixed_size_loop_indices (S O : Nat) (respect : Bool)
    (text : List Char) :
    ∀ (fuel pos idx : Nat),
      (fixed_size_loop S O respect text fuel pos idx).map TextChunk.index
        = List.range' idx (fixed_size_loop S O respect text fuel pos idx).length := by
  intro fuel
  induction fuel with
  | zero =>
    intro pos idx
    rfl
  | succ fuel ih =>
    intro pos idx
    simp only [fixed_size_loop]
    by_cases hpos : pos < text.length
    · rw [if_pos hpos]
      split
      · split
        · rfl
        · exact ih (pos + fixedStride S O) idx
      · split
        · rfl
        · simp only [List.map_cons, List.length_cons, List.range'_succ]
          rw [ih (pos + fixedStride S O) (idx + 1)]
    · rw [if_neg hpos]
      rfl

/-- `fixed_size_chunk_text`: indices are `0..N-1`. -/
theorem fixed_size_chunk_text_indices (S O : Nat) (respect : Bool)
    (text : List Char) :
    (fixed_size_chunk_text S O respect text).map TextChunk.index
      = List.range (fixed_size_chunk_text S O respect text).length := by
  unfold fixed_size_chunk_text
  dsimp only
  split
  · rfl
  · rw [List.range_eq_range']
    exact fixed_size_loop_indices S O respect _ _ 0 0

/-- `fixed_size_chunk_text`: every chunk covers a non-empty range and spans
at most `chunk_size`. -/
theorem fixed_size_chunk_text_bounds (S O : Nat) (hS : 0 < S) (respect : Bool)
    (text : List Char) :
    ∀ c ∈ fixed_size_chunk_text S O respect text,
      c.start_char < c.end_char ∧ c.end_char ≤ c.start_char + S := by
  intro c hc
  unfold fixed_size_chunk_text at hc
  dsimp only at hc
  split at hc
  · simp at hc
  · have := fixed_size_loop_bounds S O hS respect _ _ 0 0 c hc
    exact ⟨this.2.2, this.2.1⟩

/-! ## C2 — fixed-size consecutive-chunk overlap bound -/

/-- **C2.**  For every fixed-size chunking run with `0 < S` and `O < S`, any
two consecutive kept chunks overlap by at most `O` characters: the earlier
chunk's `end_char` exceeds the later chunk's `start_char` by at most `O`,
word-boundary snapping included (snapping only moves a window's right edge
left, and the next window's start does not depend on it). -/
theorem C2_overlap_bound (S O : Nat) (hS : 0 < S) (hO : O < S)
    (text : List Char) (j : Nat)
    (hj : j < (fixed_size_chunk_text S O true text).length - 1) :
    ((fixed_size_chunk_text S O true text).get
        ⟨j, by omega⟩).end_char ≤
      ((fixed_size_chunk_text S O true text).get
        ⟨j + 1, by omega⟩).start_char + O := by
  have hchain : List.Chain'
      (fun a b => a.start_char + fixedStride S O ≤ b.start_char)
      (fixed_size_chunk_text S O true text) := by
    unfold fixed_size_chunk_text
    dsimp only
    split
    · exact List.chain'_nil
    · exact fixed_size_loop_chain S O hS true _ _ 0 0
  have hstep := List.chain'_iff_get.mp hchain j hj
  have hb := fixed_size_chunk_text_bounds S O hS true text
    ((fixed_size_chunk_text S O true text).get ⟨j, by omega⟩)
    (List.get_mem _ _ _)
  have hstride : fixedStride S O = S - O := by
    unfold fixedStride
    rw [if_neg (by omega)]
  omega

/-- Witness for `C2_overlap_bound` on a concrete text producing three
chunks. -/
theorem C2_overlap_bound_witness :
    ((fixed_size_chunk_text 10 3 true
        ("hello world foo bar baz".toList)).get ⟨0, by decide⟩).end_char ≤
      ((fixed_size_chunk_text 10 3 true
        ("hello world foo bar baz".toList)).get ⟨1, by decide⟩).start_char + 3 :=
  C2_overlap_bound 10 3 (by norm_num) (by norm_num)
    ("hello world foo bar baz".toList) 0 (by decide)

/-! ## Sentence/paragraph loop invariants -/

theorem joinSep_length_pos (sep : List Char) :
    ∀ l : List (List Char), l ≠ [] → (∀ s ∈ l, s ≠ []) →
      0 < (joinSep sep l).length
  | [], h, _ => absurd rfl h
  | [s], _, hs => by
    have := hs s (by simp)
    simp only [joinSep]
    cases s with
    | nil => exact absurd rfl this
    | cons a t => simp
  | s :: s2 :: rest, _, hs => by
    have h1 : s ≠ [] := hs s (by simp)
    simp only [joinSep, List.length_append]
    cases s with
    | nil => exact absurd rfl h1
    | cons a t => simp

theorem overlapSentencesGo_mem (O : Nat) :
    ∀ (l acc : List (List Char)) (size : Nat) (t : List Char),
      t ∈ overlapSentencesGo O l acc size → t ∈ l ∨ t ∈ acc
  | [], acc, size, t => by
    intro h
    exact Or.inr h
  | s :: rest, acc, size, t => by
    intro h
    simp only [overlapSentencesGo] at h
    split at h
    · rcases List.mem_cons.mp h with rfl | h'
      · exact Or.inl (List.mem_cons_self _ _)
      · exact Or.inr h'
    · rcases overlapSentencesGo_mem O rest (s :: acc) _ t h with h' | h'
      · exact Or.inl (List.mem_cons_of_mem _ h')
      · rcases List.mem_cons.mp h' with rfl | h''
        · exact Or.inl (List.mem_cons_self _ _)
        · exact Or.inr h''

theorem overlapSentences_mem {O : Nat} {cur : List (List Char)}
    {t : List Char} (h : t ∈ overlapSentences O cur) : t ∈ cur := by
  unfold overlapSentences at h
  rcases overlapSentencesGo_mem O cur.reverse [] 0 t h with h' | h'
  · exact List.mem_reverse.mp h'
  · simp at h'

theorem mergeShortSentences_ne_nil :
    ∀ (l : List (List Char)) (buffer : List Char),
      (∀ s ∈ l, s ≠ []) → buffer ≠ [] →
      ∀ t ∈ mergeShortSentences buffer l, t ≠ []
  | [], buffer, _, hb, t => by
    intro ht
    simp only [mergeShortSentences] at ht
    rw [if_neg (by simpa using hb)] at ht
    simp only [List.mem_singleton] at ht
    rw [ht]
    exact hb
  | s :: rest, buffer, hl, hb, t => by
    intro ht
    simp only [mergeShortSentences] at ht
    split at ht
    · exact mergeShortSentences_ne_nil rest _ (fun x hx => hl x (by simp [hx]))
        (by simp) t ht
    · rw [if_neg (by simpa using hb)] at ht
      rcases List.mem_cons.mp ht with rfl | ht'
      · exact hb
      · exact mergeShortSentences_ne_nil rest s
          (fun x hx => hl x (by simp [hx])) (hl s (by simp)) t ht'

theorem mergeShort_all_ne_nil :
    ∀ (fs : List (List Char)), (∀ s ∈ fs, s ≠ []) →
      ∀ t ∈ mergeShortSentences [] fs, t ≠ []
  | [], _, t => by
    intro ht
    simp [mergeShortSentences] at ht
  | s :: rest, hel, t => by
    intro ht
    simp only [mergeShortSentences] at ht
    rw [if_neg (by simp), if_pos (by simp)] at ht
    exact mergeShortSentences_ne_nil rest s
      (fun x hx => hel x (by simp [hx])) (hel s (by simp)) t ht

theorem split_sentences_ne_nil (text : List Char) :
    ∀ t ∈ split_sentences text, t ≠ [] := by
  intro t ht
  refine mergeShort_all_ne_nil
    (((splitSentencesAux none [] text).map pyStrip).filter
      (fun s => ¬ s.isEmpty)) ?_ t ht
  intro s hs
  have := (List.mem_filter.mp hs).2
  simpa using this

theorem getLastD_mem : ∀ (l : List α) (d : α), l ≠ [] → l.getLastD d ∈ l
  | [], _, h => absurd rfl h
  | a :: t, d, _ => by
    rw [List.getLastD_cons]
    cases t with
    | nil => simp [List.getLastD]
    | cons b t2 =>
      exact List.mem_cons_of_mem _ (getLastD_mem (b :: t2) a (by simp))

theorem sentence_loop_indices (S O : Nat) :
    ∀ (sents cur : List (List Char)) (size start idx : Nat),
      (sentence_loop S O sents cur size start idx).map TextChunk.index
        = List.range' idx (sentence_loop S O sents cur size start idx).length
  | [], cur, size, start, idx => by
    simp only [sentence_loop]
    split <;> rfl
  | s :: rest, cur, size, start, idx => by
    simp only [sentence_loop]
    split
    · split
      · simp only [List.map_cons, List.length_cons, List.range'_succ]
        rw [sentence_loop_indices S O rest _ _ _ (idx + 1)]
      · simp only [List.map_cons, List.length_cons, List.range'_succ]
        rw [sentence_loop_indices S O rest _ _ _ (idx + 1)]
    · exact sentence_loop_indices S O rest _ _ _ idx

theorem sentence_loop_start_lt (S O : Nat) :
    ∀ (sents cur : List (List Char)) (size start idx : Nat),
      (∀ t ∈ cur, t ≠ []) → (∀ t ∈ sents, t ≠ []) →
      ∀ c ∈ sentence_loop S O sents cur size start idx,
        c.start_char < c.end_char
  | [], cur, size, start, idx => by
    intro hcur _ c hc
    simp only [sentence_loop] at hc
    split at hc
    · simp at hc
    · rename_i hne
      simp only [List.mem_singleton] at hc
      subst hc
      have := joinSep_length_pos [' '] cur (by simpa using hne) hcur
      simp only [joinSpace]
      omega
  | s :: rest, cur, size, start, idx => by
    intro hcur hsents c hc
    simp only [sentence_loop] at hc
    split at hc
    · rename_i hcond
      have hs : s ≠ [] := hsents s (by simp)
      have hrest : ∀ t ∈ rest, t ≠ [] := fun t ht => hsents t (by simp [ht])
      split at hc
      · rcases List.mem_cons.mp hc with rfl | hc'
        · have := joinSep_length_pos [' '] cur (by simpa using hcond.2) hcur
          simp only [joinSpace]
          omega
        · refine sentence_loop_start_lt S O rest _ _ _ _ ?_ hrest c hc'
          intro t ht
          rcases List.mem_append.mp ht with h' | h'
          · exact hcur t (overlapSentences_mem h')
          · simp only [List.mem_singleton] at h'
            rw [h']
            exact hs
      · rcases List.mem_cons.mp hc with rfl | hc'
        · have := joinSep_length_pos [' '] cur (by simpa using hcond.2) hcur
          simp only [joinSpace]
          omega
        · refine sentence_loop_start_lt S O rest _ _ _ _ ?_ hrest c hc'
          intro t ht
          simp only [List.mem_singleton] at ht
          rw [ht]
          exact hs
    · refine sentence_loop_start_lt S O rest _ _ _ _ ?_
        (fun t ht => hsents t (by simp [ht])) c hc
      intro t ht
      rcases List.mem_append.mp ht with h' | h'
      · exact hcur t h'
      · simp only [List.mem_singleton] at h'
        rw [h']
        exact hsents s (by simp)

theorem paragraph_loop_indices (S O : Nat) :
    ∀ (paras cur : List (List Char)) (size start idx : Nat),
      (paragraph_loop S O paras cur size start idx).map TextChunk.index
        = List.range' idx (paragraph_loop S O paras cur size start idx).length
  | [], cur, size, start, idx => by
    simp only [paragraph_loop]
    split <;> rfl
  | p :: rest, cur, size, start, idx => by
    simp only [paragraph_loop]
    split
    · split
      · split
        · simp only [List.map_cons, List.length_cons, List.range'_succ]
          rw [paragraph_loop_indices S O rest _ _ _ (idx + 1)]
        · simp only [List.map_cons, List.length_cons, List.range'_succ]
          rw [paragraph_loop_indices S O rest _ _ _ (idx + 1)]
      · simp only [List.map_cons, List.length_cons, List.range'_succ]
        rw [paragraph_loop_indices S O rest _ _ _ (idx + 1)]
    · exact paragraph_loop_indices S O rest _ _ _ idx

theorem paragraph_loop_start_lt (S O : Nat) :
    ∀ (paras cur : List (List Char)) (size start idx : Nat),
      (∀ t ∈ cur, t ≠ []) → (∀ t ∈ paras, t ≠ []) →
      ∀ c ∈ paragraph_loop S O paras cur size start idx,
        c.start_char < c.end_char
  | [], cur, size, start, idx => by
    intro hcur _ c hc
    simp only [paragraph_loop] at hc
    split at hc
    · simp at hc
    · rename_i hne
      simp only [List.mem_singleton] at hc
      subst hc
      have := joinSep_length_pos ['\n', '\n'] cur (by simpa using hne) hcur
      simp only [joinPara]
      omega
  | p :: rest, cur, size, start, idx => by
    intro hcur hparas c hc
    simp only [paragraph_loop] at hc
    have hp : p ≠ [] := hparas p (by simp)
    have hrest : ∀ t ∈ rest, t ≠ [] := fun t ht => hparas t (by simp [ht])
    split at hc
    · rename_i hcond
      have hchunk :
          0 < (joinPara cur).length := by
        have := joinSep_length_pos ['\n', '\n'] cur (by simpa using hcond.2) hcur
        simpa [joinPara] using this
      have hlast : ∀ t ∈ ([cur.getLastD []] : List (List Char)) ++ [p], t ≠ [] := by
        intro t ht
        rcases List.mem_append.mp ht with h' | h'
        · simp only [List.mem_singleton] at h'
          rw [h']
          exact hcur _ (getLastD_mem cur [] (by simpa using hcond.2))
        · simp only [List.mem_singleton] at h'
          rw [h']
          exact hp
      have hsingle : ∀ t ∈ ([p] : List (List Char)), t ≠ [] := by
        intro t ht
        simp only [List.mem_singleton] at ht
        rw [ht]
        exact hp
      split at hc
      · split at hc
        · rcases List.mem_cons.mp hc with rfl | hc'
          · show start < start + (joinPara cur).length
            omega
          · exact paragraph_loop_start_lt S O rest _ _ _ _ hlast hrest c hc'
        · rcases List.mem_cons.mp hc with rfl | hc'
          · show start < start + (joinPara cur).length
            omega
          · exact paragraph_loop_start_lt S O rest _ _ _ _ hsingle hrest c hc'
      · rcases List.mem_cons.mp hc with rfl | hc'
        · show start < start + (joinPara cur).length
          omega
        · exact paragraph_loop_start_lt S O rest _ _ _ _ hsingle hrest c hc'
    · refine paragraph_loop_start_lt S O rest _ _ _ _ ?_ hrest c hc
      intro t ht
      rcases List.mem_append.mp ht with h' | h'
      · exact hcur t h'
      · simp only [List.mem_singleton] at h'
        rw [h']
        exact hp

/-! ## Strategy-level chunk invariants -/

theorem sentence_chunk_text_indices (S O : Nat) (text : List Char) :
    (sentence_chunk_text S O text).map TextChunk.index
      = List.range (sentence_chunk_text S O text).length := by
  unfold sentence_chunk_text
  dsimp only
  split
  · rfl
  · split
    · exact fixed_size_chunk_text_indices S O true _
    · rw [List.range_eq_range']
      exact sentence_loop_indices S O _ _ _ _ 0

theorem sentence_chunk_text_start_lt (S O : Nat) (hS : 0 < S)
    (text : List Char) :
    ∀ c ∈ sentence_chunk_text S O text, c.start_char < c.end_char := by
  intro c hc
  unfold sentence_chunk_text at hc
  dsimp only at hc
  split at hc
  · simp at hc
  · split at hc
    · exact (fixed_size_chunk_text_bounds S O hS true _ c hc).1
    · exact sentence_loop_start_lt S O _ _ _ _ _ (by simp)
        (split_sentences_ne_nil _) c hc

theorem paragraph_chunk_text_indices (S O : Nat) (text : List Char) :
    (paragraph_chunk_text S O text).map TextChunk.index
      = List.range (paragraph_chunk_text S O text).length := by
  unfold paragraph_chunk_text
  dsimp only
  split
  · rfl
  · split
    · exact sentence_chunk_text_indices S O _
    · rw [List.range_eq_range']
      exact paragraph_loop_indices S O _ _ _ _ 0

theorem paragraph_chunk_text_start_lt (S O : Nat) (hS : 0 < S)
    (text : List Char) :
    ∀ c ∈ paragraph_chunk_text S O text, c.start_char < c.end_char := by
  intro c hc
  unfold paragraph_chunk_text at hc
  dsimp only at hc
  split at hc
  · simp at hc
  · split at hc
    · exact sentence_chunk_text_start_lt S O hS _ c hc
    · refine paragraph_loop_start_lt S O _ _ _ _ _ (by simp) ?_ c hc
      intro t ht
      have := (List.mem_filter.mp ht).2
      simpa using this

/-! ## C3 — chunk index contiguity and non-empty ranges -/

/-- **C3.**  For every input text and every strategy (`fixed_size`,
`sentence`, `paragraph`) with a valid configuration, the returned chunk
sequence has indices exactly `0..N-1` with no gaps (indices are reassigned
sequentially over kept chunks), and every chunk satisfies
`end_char > start_char`. -/
theorem C3_chunk_invariants :
    ∀ (strategy : List Char) (S O : Nat), 0 < S → O < S →
      (strategy = "fixed_size".toList ∨ strategy = "sentence".toList ∨
        strategy = "paragraph".toList) →
      ∀ text : List Char,
        ((strategy_chunk_text strategy S O text).map TextChunk.index
          = List.range (strategy_chunk_text strategy S O text).length) ∧
        (∀ c ∈ strategy_chunk_text strategy S O text,
          c.start_char < c.end_char) := by
  intro strategy S O hS _hO hstrat text
  rcases hstrat with rfl | rfl | rfl
  · unfold strategy_chunk_text
    rw [if_pos rfl]
    exact ⟨fixed_size_chunk_text_indices S O true text,
      fun c hc => (fixed_size_chunk_text_bounds S O hS true text c hc).1⟩
  · unfold strategy_chunk_text
    rw [if_neg (by decide), if_pos rfl]
    exact ⟨sentence_chunk_text_indices S O text,
      sentence_chunk_text_start_lt S O hS text⟩
  · unfold strategy_chunk_text
    rw [if_neg (by decide), if_neg (by decide), if_pos rfl]
    exact ⟨paragraph_chunk_text_indices S O text,
      paragraph_chunk_text_start_lt S O hS text⟩

/-- Witness for `C3_chunk_invariants`: the index contiguity at a concrete
sentence-strategy run. -/
theorem C3_chunk_invariants_witness :
    (strategy_chunk_text ("sentence".toList) 40 10
        ("One sentence here. Another sentence there.".toList)).map
        TextChunk.index
      = List.range (strategy_chunk_text ("sentence".toList) 40 10
        ("One sentence here. Another sentence there.".toList)).length :=
  (C3_chunk_invariants ("sentence".toList) 40 10 (by norm_num) (by norm_num)
    (Or.inr (Or.inl rfl))
    ("One sentence here. Another sentence there.".toList)).1

/-! ## Orchestrator-loop lemmas -/

/-- `store_embedding` never removes a stored chunk id. -/
theorem store_embedding_keys_mono {stored : List (Nat × List ℚ)}
    {x cid : Nat} {v : List ℚ} (h : x ∈ stored.map Prod.fst) :
    x ∈ (store_embedding stored cid v).map Prod.fst := by
  unfold store_embedding
  split
  · rw [List.map_map]
    have : (Prod.fst ∘ fun p : Nat × List ℚ =>
        if p.1 == cid then (p.1, v) else p) = Prod.fst := by
      funext p
      simp only [Function.comp_apply]
      split <;> rfl
    rw [this]
    exact h
  · rw [List.map_append]
    exact List.mem_append_left _ h

/-- `store_embedding` records the stored chunk id. -/
theorem store_embedding_keys_self (stored : List (Nat × List ℚ))
    (cid : Nat) (v : List ℚ) :
    cid ∈ (store_embedding stored cid v).map Prod.fst := by
  unfold store_embedding
  split
  · rename_i hany
    rw [List.map_map]
    have heq : (Prod.fst ∘ fun p : Nat × List ℚ =>
        if p.1 == cid then (p.1, v) else p) = Prod.fst := by
      funext p
      simp only [Function.comp_apply]
      split <;> rfl
    rw [heq]
    rcases List.any_eq_true.mp hany with ⟨p, hp, hpe⟩
    have : p.1 = cid := by simpa using hpe
    rw [← this]
    exact List.mem_map_of_mem _ hp
  · rw [List.map_append]
    exact List.mem_append_right _ (by simp)

/-- The per-batch store fold preserves existing chunk ids. -/
theorem storeBatch_keys_mono (pairs : List (Nat × List ℚ)) :
    ∀ (stored : List (Nat × List ℚ)) (x : Nat), x ∈ stored.map Prod.fst →
      x ∈ (pairs.foldl (fun s p => store_embedding s p.1 p.2)
        stored).map Prod.fst := by
  induction pairs with
  | nil =>
    intro stored x h
    exact h
  | cons p rest ih =>
    intro stored x h
    exact ih _ x (store_embedding_keys_mono h)

/-- The per-batch store fold records each pair's chunk id. -/
theorem storeBatch_keys_self (pairs : List (Nat × List ℚ)) :
    ∀ (stored : List (Nat × List ℚ)) (p : Nat × List ℚ), p ∈ pairs →
      p.1 ∈ (pairs.foldl (fun s q => store_embedding s q.1 q.2)
        stored).map Prod.fst := by
  induction pairs with
  | nil =>
    intro stored p h
    simp at h
  | cons q rest ih =>
    intro stored p h
    rcases List.mem_cons.mp h with rfl | h'
    · exact storeBatch_keys_mono rest _ p.1 (store_embedding_keys_self _ _ _)
    · exact ih _ p h'

/-- The batch loop preserves stored chunk ids. -/
theorem embed_batches_keys_mono (g : List Char → List ℚ)
    (tok : List Char → Nat) (fail : Nat → Bool) :
    ∀ (bs : List (List DChunk)) (k0 : Nat) (st : EmbRunState) (x : Nat),
      x ∈ st.stored.map Prod.fst →
      x ∈ (embed_batches g tok fail k0 bs st).stored.map Prod.fst := by
  intro bs
  induction bs with
  | nil =>
    intro k0 st x h
    exact h
  | cons b rest ih =>
    intro k0 st x h
    simp only [embed_batches]
    split
    · exact ih _ _ x h
    · exact ih _ _ x (storeBatch_keys_mono _ _ x h)

/-- Failed ids accumulated by the batch loop when exactly batch `k` fails:
exactly the ids of batch `k` (empty when `k` is out of range). -/
theorem embed_batches_failed (g : List Char → List ℚ)
    (tok : List Char → Nat) (k : Nat) :
    ∀ (bs : List (List DChunk)) (k0 : Nat) (st : EmbRunState),
      (embed_batches g tok (fun j => j == k) k0 bs st).failed
        = st.failed ++ (if k0 ≤ k then (bs.getD (k - k0) []).map DChunk.id
            else []) := by
  intro bs
  induction bs with
  | nil =>
    intro k0 st
    simp only [embed_batches, List.getD_nil, List.map_nil]
    split <;> simp
  | cons b rest ih =>
    intro k0 st
    simp only [embed_batches]
    by_cases hk0 : k0 = k
    · subst hk0
      rw [if_pos (by simp)]
      rw [ih (k0 + 1)]
      simp only [Nat.sub_self, List.getD_cons_zero]
      rw [if_neg (by omega), if_pos (by omega)]
      simp
    · rw [if_neg (by simpa using hk0)]
      rw [ih (k0 + 1)]
      by_cases hle : k0 ≤ k
      · have h1 : k0 + 1 ≤ k := by omega
        rw [if_pos h1, if_pos hle]
        have : k - k0 = (k - (k0 + 1)) + 1 := by omega
        rw [this, List.getD_cons_succ]
      · rw [if_neg (by omega), if_neg hle]

/-- Every chunk of a batch other than the failing one has its id stored
after the batch loop. -/
theorem embed_batches_stored (g : List Char → List ℚ)
    (tok : List Char → Nat) (k : Nat) :
    ∀ (bs : List (List DChunk)) (k0 : Nat) (st : EmbRunState) (c : DChunk)
      (j : Nat), j + k0 ≠ k → c ∈ bs.getD j [] →
      c.id ∈ (embed_batches g tok (fun i => i == k) k0 bs st).stored.map
        Prod.fst := by
  intro bs
  induction bs with
  | nil =>
    intro k0 st c j _ hc
    simp at hc
  | cons b rest ih =>
    intro k0 st c j hj hc
    simp only [embed_batches]
    cases j with
    | zero =>
      simp only [List.getD_cons_zero] at hc
      have hne : (k0 == k) = false := by
        simp only [beq_eq_false_iff_ne, ne_eq]
        omega
      rw [if_neg (by simp [hne])]
      apply embed_batches_keys_mono
      have : (c.id, g c.chunk_text) ∈ b.map (fun c => (c.id, g c.chunk_text)) :=
        List.mem_map_of_mem _ hc
      simpa using storeBatch_keys_self _ _ _ this
    | succ j =>
      simp only [List.getD_cons_succ] at hc
      split
      · exact ih (k0 + 1) _ c j (by omega) hc
      · exact ih (k0 + 1) _ c j (by omega) hc

/-- `chunkEvery` computes `chunks[i*B : i*B+B]` at every batch ordinal. -/
theorem chunkEvery_getD (B : Nat) (hB : 0 < B) :
    ∀ (fuel : Nat) (l : List DChunk) (i : Nat), l.length ≤ fuel →
      (chunkEveryAux B fuel l).getD i [] = (l.drop (i * B)).take B := by
  intro fuel
  induction fuel with
  | zero =>
    intro l i hn
    have : l = [] := List.length_eq_zero.mp (by omega)
    subst this
    simp [chunkEveryAux]
  | succ fuel ih =>
    intro l i hn
    simp only [chunkEveryAux]
    by_cases hemp : l.isEmpty
    · rw [if_pos hemp]
      have : l = [] := by simpa using hemp
      subst this
      simp
    · rw [if_neg hemp]
      have hne : l ≠ [] := by simpa using hemp
      cases i with
      | zero => simp
      | succ i =>
        rw [List.getD_cons_succ]
        rw [ih (l.drop B) i
          (by
            have : 0 < l.length := List.length_pos.mpr hne
            simp only [List.length_drop]
            omega)]
        rw [List.drop_drop]
        congr 2
        ring

/-- Every chunk of a list lies in one of its `B`-sized batches. -/
theorem mem_batch_of_mem (B : Nat) (hB : 0 < B) :
    ∀ (n : Nat) (l : List DChunk) (c : DChunk), l.length ≤ n → c ∈ l →
      ∃ j, c ∈ (l.drop (j * B)).take B := by
  intro n
  induction n with
  | zero =>
    intro l c hn hc
    have : l = [] := List.length_eq_zero.mp (by omega)
    subst this
    simp at hc
  | succ n ih =>
    intro l c hn hc
    rw [← List.take_append_drop B l] at hc
    rcases List.mem_append.mp hc with h' | h'
    · exact ⟨0, by simpa using h'⟩
    · have hlen : (l.drop B).length ≤ n := by
        have : 0 < l.length := by
          rcases l with _ | _
          · simp at h'
          · simp
        simp only [List.length_drop]
        omega
      obtain ⟨j, hj⟩ := ih (l.drop B) c hlen h'
      refine ⟨j + 1, ?_⟩
      rw [List.drop_drop] at hj
      have : B + j * B = (j + 1) * B := by ring
      rwa [this] at hj

/-! ## C1 — partial failure containment in the orchestrator -/

/-- **C1.**  When the provider call fails for exactly one batch `k` (and
succeeds for every other batch), `embed_document_chunks` still stores an
embedding for every chunk outside batch `k`, reports exactly batch `k`'s
chunk ids as failed, and marks the document `COMPLETED` with a non-fatal
error note about the failed count — not `FAILED`. -/
theorem C1_partial_failure (g : List Char → List ℚ) (tok : List Char → Nat)
    (chunks : List DChunk) (B k : Nat) (hB : 0 < B)
    (hk : k * B < chunks.length) :
    (embed_document_chunks g tok (fun j => j == k) chunks B).1.failed_chunk_ids
      = ((chunks.drop (k * B)).take B).map DChunk.id ∧
    (∀ c ∈ chunks, c ∉ (chunks.drop (k * B)).take B →
      c.id ∈ (embed_document_chunks g tok (fun j => j == k) chunks
        B).2.2.map Prod.fst) ∧
    (embed_document_chunks g tok (fun j => j == k) chunks
      B).2.1.processing_status = ProcessingStatus.completed ∧
    (embed_document_chunks g tok (fun j => j == k) chunks
      B).2.1.processing_error = some ("Failed to embed ".toList
        ++ (toString ((chunks.drop (k * B)).take B).length).toList
        ++ " chunks".toList) ∧
    (embed_document_chunks g tok (fun j => j == k) chunks B).1.success
      = false := by
  have hbatch : ∀ i, (chunkEvery B chunks).getD i []
      = (chunks.drop (i * B)).take B := by
    intro i
    exact chunkEvery_getD B hB chunks.length chunks i (Nat.le_refl _)
  have hfailed : (embed_batches g tok (fun j => j == k) 0
      (chunkEvery B chunks) ⟨[], 0, [], 0⟩).failed
      = ((chunks.drop (k * B)).take B).map DChunk.id := by
    rw [embed_batches_failed g tok k (chunkEvery B chunks) 0 ⟨[], 0, [], 0⟩]
    rw [if_pos (Nat.zero_le k)]
    rw [Nat.sub_zero, hbatch k]
    rfl
  have hbadne : (chunks.drop (k * B)).take B ≠ [] := by
    have hdrop : chunks.drop (k * B) ≠ [] := by
      intro hcontra
      have := congrArg List.length hcontra
      simp only [List.length_drop, List.length_nil] at this
      omega
    intro hcontra
    rcases List.take_eq_nil_iff.mp hcontra with h | h
    · omega
    · exact hdrop h
  have hfailedne : (embed_batches g tok (fun j => j == k) 0
      (chunkEvery B chunks) ⟨[], 0, [], 0⟩).failed ≠ [] := by
    rw [hfailed]
    simpa using hbadne
  refine ⟨?_, ?_, ?_, ?_, ?_⟩
  · exact hfailed
  · intro c hc hcnot
    obtain ⟨j, hj⟩ := mem_batch_of_mem B hB chunks.length chunks c
      (Nat.le_refl _) hc
    have hjk : j ≠ k := by
      intro hcontra
      rw [hcontra] at hj
      exact hcnot hj
    unfold embed_document_chunks
    dsimp only
    exact embed_batches_stored g tok k (chunkEvery B chunks) 0 _ c j
      (by omega) (by rw [hbatch j]; exact hj)
  · unfold embed_document_chunks
    dsimp only
    split <;> rfl
  · unfold embed_document_chunks
    dsimp only
    rw [if_neg (by simpa using hfailedne)]
    dsimp only
    rw [hfailed]
    rw [List.length_map]
  · unfold embed_document_chunks
    dsimp only
    simpa using hfailedne

/-- Witness for `C1_partial_failure`: five chunks in batches of two, batch 1
failing. -/
theorem C1_partial_failure_witness :
    (embed_document_chunks (fun t => [(t.length : ℚ)]) (fun _ => 1)
      (fun j => j == 1)
      [⟨10, "aa".toList⟩, ⟨11, "bb".toList⟩, ⟨12, "cc".toList⟩,
       ⟨13, "dd".toList⟩, ⟨14, "ee".toList⟩] 2).1.failed_chunk_ids
      = ((([⟨10, "aa".toList⟩, ⟨11, "bb".toList⟩, ⟨12, "cc".toList⟩,
       ⟨13, "dd".toList⟩, ⟨14, "ee".toList⟩] : List DChunk).drop
        (1 * 2)).take 2).map DChunk.id :=
  (C1_partial_failure (fun t => [(t.length : ℚ)]) (fun _ => 1)
    [⟨10, "aa".toList⟩, ⟨11, "bb".toList⟩, ⟨12, "cc".toList⟩,
     ⟨13, "dd".toList⟩, ⟨14, "ee".toList⟩] 2 1 (by norm_num) (by decide)).1

/-! ## Batch-embedding reassembly lemmas -/

theorem process_embedding_batch_enumFrom (g : List Char → List ℚ) :
    ∀ (texts : List (List Char)) (n s : Nat),
      (texts.enumFrom n).map
          (fun p => (⟨s + p.1, g p.2⟩ : EmbeddingResult))
        = resultsFrom g (s + n) texts
  | [], n, s => rfl
  | t :: rest, n, s => by
    rw [List.enumFrom_cons, List.map_cons]
    rw [process_embedding_batch_enumFrom g rest (n + 1) s]
    simp only [resultsFrom]
    rw [show s + (n + 1) = s + n + 1 by omega]

theorem process_embedding_batch_eq (g : List Char → List ℚ)
    (texts : List (List Char)) (s : Nat) :
    process_embedding_batch g texts s = resultsFrom g s texts := by
  unfold process_embedding_batch
  have := process_embedding_batch_enumFrom g texts 0 s
  simpa using this

theorem resultsFrom_append (g : List Char → List ℚ) :
    ∀ (l1 l2 : List (List Char)) (start : Nat),
      resultsFrom g start (l1 ++ l2)
        = resultsFrom g start l1 ++ resultsFrom g (start + l1.length) l2
  | [], l2, start => by simp [resultsFrom]
  | t :: rest, l2, start => by
    simp only [List.cons_append, resultsFrom, List.length_cons,
      List.append_eq]
    rw [resultsFrom_append g rest l2 (start + 1)]
    rw [show start + 1 + rest.length = start + (rest.length + 1) by omega]

theorem embedding_batch_tasksAux_flatten (g : List Char → List ℚ)
    (eff : Nat) (heff : 0 < eff) :
    ∀ (fuel start : Nat) (texts : List (List Char)), texts.length ≤ fuel →
      (embedding_batch_tasksAux g eff fuel start texts).flatten
        = resultsFrom g start texts := by
  intro fuel
  induction fuel with
  | zero =>
    intro start texts hn
    have : texts = [] := List.length_eq_zero.mp (by omega)
    subst this
    rfl
  | succ fuel ih =>
    intro start texts hn
    simp only [embedding_batch_tasksAux]
    by_cases hemp : texts.isEmpty
    · rw [if_pos hemp]
      have : texts = [] := by simpa using hemp
      subst this
      rfl
    · rw [if_neg hemp]
      have hne : texts ≠ [] := by simpa using hemp
      have hpos : 0 < texts.length := List.length_pos.mpr hne
      rw [List.flatten_cons]
      rw [process_embedding_batch_eq g (texts.take eff) start]
      rw [ih (start + eff) (texts.drop eff)
        (by simp only [List.length_drop]; omega)]
      by_cases hcase : eff ≤ texts.length
      · conv_rhs => rw [← List.take_append_drop eff texts]
        rw [resultsFrom_append g (texts.take eff) (texts.drop eff) start]
        congr 2
        rw [List.length_take]
        omega
      · rw [List.drop_eq_nil_of_le (by omega)]
        rw [List.take_of_length_le (by omega)]
        simp [resultsFrom]

theorem canonicalResults_eq (g : List Char → List ℚ)
    (texts : List (List Char)) :
    canonicalResults g texts = resultsFrom g 0 texts := by
  have h := process_embedding_batch_eq g texts 0
  unfold process_embedding_batch at h
  unfold canonicalResults
  rw [← h]
  congr 1
  funext p
  simp

theorem resultsFrom_map_index (g : List Char → List ℚ) :
    ∀ (texts : List (List Char)) (start : Nat),
      (resultsFrom g start texts).map EmbeddingResult.index
        = List.range' start texts.length
  | [], start => rfl
  | t :: rest, start => by
    simp only [resultsFrom, List.map_cons, List.length_cons, List.range'_succ]
    rw [resultsFrom_map_index g rest (start + 1)]

theorem resultsFrom_index_ge (g : List Char → List ℚ) :
    ∀ (texts : List (List Char)) (start : Nat),
      ∀ r ∈ resultsFrom g start texts, start ≤ r.index
  | [], start => by intro r hr; simp [resultsFrom] at hr
  | t :: rest, start => by
    intro r hr
    simp only [resultsFrom, List.mem_cons] at hr
    rcases hr with rfl | hr'
    · exact Nat.le_refl _
    · have := resultsFrom_index_ge g rest (start + 1) r hr'
      omega

theorem resultsFrom_sorted (g : List Char → List ℚ) :
    ∀ (texts : List (List Char)) (start : Nat),
      List.Sorted idxLtOrEq (resultsFrom g start texts)
  | [], start => List.sorted_nil
  | t :: rest, start => by
    simp only [resultsFrom]
    rw [List.sorted_cons]
    constructor
    · intro b hb
      have := resultsFrom_index_ge g rest (start + 1) b hb
      exact Or.inl (by simp only; omega)
    · exact resultsFrom_sorted g rest (start + 1)

theorem resultsFrom_map_embedding (g : List Char → List ℚ) :
    ∀ (texts : List (List Char)) (start : Nat),
      (resultsFrom g start texts).map EmbeddingResult.embedding
        = texts.map g
  | [], start => rfl
  | t :: rest, start => by
    simp only [resultsFrom, List.map_cons]
    rw [resultsFrom_map_embedding g rest (start + 1)]

/-! ## C5 — batch embedding preserves input order -/

/-- **C5.**  For every non-empty input list and positive batch size,
whatever the completion order of the concurrently dispatched batches (any
permutation `gathered` of the submitted per-batch result lists),
`get_embeddings_batch` — flatten, then sort by the per-item global index
carried through each batch — returns exactly one result per input text, in
input order: the assembled list is the canonical in-order result list, its
length is the input length, and its vectors are the inputs' embeddings in
input order. -/
theorem C5_order_preservation (g : List Char → List ℚ)
    (texts : List (List Char)) (batch_size : Nat)
    (hne : texts ≠ []) (hB : 0 < batch_size)
    (gathered : List (List EmbeddingResult))
    (hperm : gathered.Perm (embedding_batch_tasks g
      (min batch_size MAX_EMBEDDING_INPUTS_PER_REQUEST) 0 texts)) :
    get_embeddings_batch texts batch_size gathered
      = canonicalResults g texts ∧
    (get_embeddings_batch texts batch_size gathered).length
      = texts.length ∧
    (get_embeddings_batch texts batch_size gathered).map
      EmbeddingResult.embedding = texts.map g := by
  have heff : 0 < min batch_size MAX_EMBEDDING_INPUTS_PER_REQUEST := by
    have : 0 < MAX_EMBEDDING_INPUTS_PER_REQUEST := by
      unfold MAX_EMBEDDING_INPUTS_PER_REQUEST
      omega
    omega
  have hflat : (embedding_batch_tasks g
      (min batch_size MAX_EMBEDDING_INPUTS_PER_REQUEST) 0 texts).flatten
      = resultsFrom g 0 texts := by
    unfold embedding_batch_tasks
    exact embedding_batch_tasksAux_flatten g _ heff texts.length 0 texts
      (Nat.le_refl _)
  have hmain : get_embeddings_batch texts batch_size gathered
      = resultsFrom g 0 texts := by
    unfold get_embeddings_batch
    rw [if_neg (by simpa using hne)]
    unfold get_embeddings_batch_assemble
    have hperm2 : (gathered.flatten).Perm (resultsFrom g 0 texts) := by
      rw [← hflat]
      exact hperm.flatten
    have hperm3 : ((gathered.flatten).mergeSort indexLe).Perm
        (resultsFrom g 0 texts) :=
      (List.mergeSort_perm gathered.flatten indexLe).trans hperm2
    have hnodup : (((gathered.flatten).mergeSort indexLe).map
        EmbeddingResult.index).Nodup := by
      have hp := hperm3.map EmbeddingResult.index
      rw [hp.nodup_iff]
      rw [resultsFrom_map_index g texts 0]
      exact List.nodup_range' 0 texts.length
    have hsorted1 : List.Pairwise (fun a b => indexLe a b = true)
        ((gathered.flatten).mergeSort indexLe) := by
      apply List.sorted_mergeSort
      · intro a b c hab hbc
        simp only [indexLe, decide_eq_true_eq] at hab hbc ⊢
        omega
      · intro a b
        simp only [indexLe]
        rcases Nat.le_total a.index b.index with h | h
        · simp [h]
        · simp [h]
    have hsorted : List.Sorted idxLtOrEq
        ((gathered.flatten).mergeSort indexLe) := by
      have hne' : List.Pairwise
          (fun a b : EmbeddingResult => a.index ≠ b.index)
          ((gathered.flatten).mergeSort indexLe) :=
        List.pairwise_map.mp hnodup
      refine (hsorted1.and hne').imp ?_
      intro a b hab
      rcases hab with ⟨h1, h2⟩
      simp only [indexLe, decide_eq_true_eq] at h1
      exact Or.inl (by omega)
    exact List.eq_of_perm_of_sorted hperm3 hsorted
      (resultsFrom_sorted g texts 0)
  refine ⟨?_, ?_, ?_⟩
  · rw [hmain, canonicalResults_eq]
  · rw [hmain]
    have := congrArg List.length (resultsFrom_map_index g texts 0)
    simpa using this
  · rw [hmain]
    exact resultsFrom_map_embedding g texts 0

/-- Witness for `C5_order_preservation`: three texts in batches of two, with
the two batches' results gathered in reversed (out-of-order) completion
order. -/
theorem C5_order_preservation_witness :
    get_embeddings_batch ["aa".toList, "bbb".toList, "c".toList] 2
        ((embedding_batch_tasks (fun t => [(t.length : ℚ)])
          (min 2 MAX_EMBEDDING_INPUTS_PER_REQUEST) 0
          ["aa".toList, "bbb".toList, "c".toList]).reverse)
      = canonicalResults (fun t => [(t.length : ℚ)])
          ["aa".toList, "bbb".toList, "c".toList] :=
  (C5_order_preservation (fun t => [(t.length : ℚ)])
    ["aa".toList, "bbb".toList, "c".toList] 2 (by simp) (by norm_num)
    _ (List.reverse_perm _)).1

end Eleva
